import Mathlib

/-
Verification of the content acquisition and ingestion pipeline of the
indigobot-webui repository, as a shallow embedding in Lean 4.

Conventions used throughout:
* Python strings are modelled as lists of characters (`PyStr := List Char`);
  `len` becomes `List.length`, slicing becomes `take`/`drop`, `str.strip()`
  becomes `pyStrip`, substring tests (`in`) become `containsSeq`.
* URL lists handled by the dedup tracker carry no string structure, so they
  are modelled as `List String` directly.
* Network calls are abstracted by oracles (`Nat → FetchResult` for the
  robots.txt fetch attempts, `Url → Option (List Url)` for sitemap
  classification/extraction); the theorems quantify over the oracle.
* Loops whose termination depends on external data are given an explicit
  fuel argument; the properties proved hold for every fuel value.
-/

/-- Python strings modelled as lists of characters (code points). -/
abbrev PyStr := List Char

/-! ### indigobot/utils/etl/redundancy_check.py -/

/-- Loop body of `check_duplicate` (redundancy_check.py lines 25-30): the pair
carries the mutable `tracked_urls` and `urls_to_load` lists; each url already
in `tracked` is skipped, otherwise it is appended to both lists. -/
def checkDupLoop : List String → List String → List String → List String × List String
  | tracked, toLoad, [] => (tracked, toLoad)
  | tracked, toLoad, url :: rest =>
    if url ∈ tracked then checkDupLoop tracked toLoad rest
    else checkDupLoop (tracked ++ [url]) (toLoad ++ [url]) rest

/-- `check_duplicate(urls)` (redundancy_check.py lines 9-36). The prior
persisted tracked list is the first argument (the result of `file_to_list`,
or `[]` when the file does not exist). Returns the pair
(tracked list written back to `TRACKED_URLS_FILE`, returned `urls_to_load`). -/
def check_duplicate (tracked urls : List String) : List String × List String :=
  checkDupLoop tracked [] urls

/-- Specification-side description of which candidates `check_duplicate`
returns: a candidate is kept iff it is neither in the prior tracked list nor
an earlier occurrence of the same url appears among the earlier candidates
(`seen` accumulates the candidates already processed). -/
def firstOccNotIn (tracked : List String) : List String → List String → List String
  | _, [] => []
  | seen, c :: rest =>
    if c ∈ tracked ∨ c ∈ seen then firstOccNotIn tracked (seen ++ [c]) rest
    else c :: firstOccNotIn tracked (seen ++ [c]) rest

/-! ### Python string primitives -/

/-- Python whitespace characters, as stripped by `str.strip()`. -/
def isPySpace (c : Char) : Bool :=
  c == ' ' || c == '\t' || c == '\n' || c == '\r' || c == '\x0b' || c == '\x0c'

/-- Python `str.strip()`: drop whitespace from both ends. -/
def pyStrip (s : PyStr) : PyStr :=
  ((s.dropWhile isPySpace).reverse.dropWhile isPySpace).reverse

/-- Python `str.lower()` (ASCII case folding suffices for the inputs here). -/
def pyLower (s : PyStr) : PyStr := s.map Char.toLower

/-- Python substring test `pat in s`. -/
def containsSeq (pat : PyStr) : PyStr → Bool
  | [] => pat.isEmpty
  | c :: rest => pat.isPrefixOf (c :: rest) || containsSeq pat rest

/-- Python `s.split(sep)` for a non-empty separator: scan left to right; at
each occurrence of `sep` emit the accumulated piece and skip the separator.
The fuel makes the recursion structural (so the kernel can evaluate it); each
step consumes at least one character, so fuel `s.length` is always enough,
and with `s = []` the fuel-0 case agrees with the fuel-positive one. -/
def splitSeqFuel (sep : PyStr) : Nat → PyStr → PyStr → List PyStr
  | 0, s, acc => [acc.reverse ++ s]
  | _ + 1, [], acc => [acc.reverse]
  | fuel + 1, c :: rest, acc =>
    if sep.isPrefixOf (c :: rest) then
      acc.reverse :: splitSeqFuel sep fuel (rest.drop (sep.length - 1)) []
    else splitSeqFuel sep fuel rest (c :: acc)

/-- Python `s.split(sep)`. Python raises ValueError on an empty separator;
that case is modelled as the trivial split (it is never reached by the code
modelled here). -/
def splitSeq (sep s : PyStr) : List PyStr :=
  if sep.isEmpty then [s] else splitSeqFuel sep s.length s []

/-! ### urllib.robotparser, as used by indigobot/utils/jf_crawler.py

The crawler builds `RobotFileParser` objects only through `rp.parse(lines)`
and queries them only through `rp.can_fetch(agent, url)`, so exactly those
two entry points are modelled, following the stdlib source. Percent
encoding/decoding (`quote`/`unquote`) is the identity on every path
considered here and is elided; the `crawl-delay`/`request-rate`/`sitemap`
directives do not occur in the inputs of interest and are ignored by the
line parser, like any other unknown key. -/

/-- `urllib.robotparser.RuleLine`: a path prefix plus an allowance flag. -/
structure RuleLine where
  path : PyStr
  allowance : Bool
deriving DecidableEq

/-- `RuleLine.__init__`: an empty Disallow path means allow-all. -/
def mkRuleLine (path : PyStr) (allowance : Bool) : RuleLine :=
  if path.isEmpty && !allowance then ⟨path, true⟩ else ⟨path, allowance⟩

/-- `RuleLine.applies_to(filename)`. -/
def RuleLine.applies_to (line : RuleLine) (filename : PyStr) : Bool :=
  line.path == ['*'] || line.path.isPrefixOf filename

/-- `urllib.robotparser.Entry`: user agents plus rule lines. -/
structure RobotsEntry where
  useragents : List PyStr
  rulelines : List RuleLine
deriving DecidableEq

/-- `Entry.applies_to(useragent)`: match on the agent token before the first
`/`, lower-cased, by substring containment (`*` matches everything). -/
def RobotsEntry.applies_to (entry : RobotsEntry) (useragent : PyStr) : Bool :=
  let ua := pyLower ((splitSeq ['/'] useragent).headD [])
  entry.useragents.any (fun agent => agent == ['*'] || containsSeq (pyLower agent) ua)

/-- `Entry.allowance(filename)`: first applicable rule line wins; with no
applicable line the url is allowed. -/
def RobotsEntry.allowance (entry : RobotsEntry) (filename : PyStr) : Bool :=
  match entry.rulelines.find? (fun line => line.applies_to filename) with
  | some line => line.allowance
  | none => true

/-- The state of a parsed `RobotFileParser`: agent-specific entries plus the
default (`*`) entry. -/
structure RobotsPolicy where
  entries : List RobotsEntry
  default_entry : Option RobotsEntry
deriving DecidableEq

/-- `RobotFileParser._add_entry`. -/
def addEntry (pol : RobotsPolicy) (entry : RobotsEntry) : RobotsPolicy :=
  if ['*'] ∈ entry.useragents then
    if pol.default_entry = none then { pol with default_entry := some entry } else pol
  else { pol with entries := pol.entries ++ [entry] }

/-- One iteration of the `RobotFileParser.parse` line loop. State 0: start,
state 1: inside a user-agent block, state 2: rules seen for the block. -/
def parseRobotsLine (line : PyStr) (state : Nat) (entry : RobotsEntry)
    (pol : RobotsPolicy) : Nat × RobotsEntry × RobotsPolicy :=
  let blank :=
    if line.isEmpty then
      if state == 1 then (0, (⟨[], []⟩ : RobotsEntry), pol)
      else if state == 2 then (0, (⟨[], []⟩ : RobotsEntry), addEntry pol entry)
      else (state, entry, pol)
    else (state, entry, pol)
  let state := blank.1
  let entry := blank.2.1
  let pol := blank.2.2
  let line := (splitSeq ['#'] line).headD line
  let line := pyStrip line
  if line.isEmpty then (state, entry, pol)
  else
    match splitSeq [':'] line with
    | [] => (state, entry, pol)
    | [_] => (state, entry, pol)
    | key :: v :: vs =>
      let key := pyLower (pyStrip key)
      let val := pyStrip (List.intercalate [':'] (v :: vs))
      if key == "user-agent".toList then
        let flushed :=
          if state == 2 then ((⟨[], []⟩ : RobotsEntry), addEntry pol entry)
          else (entry, pol)
        (1, ⟨flushed.1.useragents ++ [val], flushed.1.rulelines⟩, flushed.2)
      else if key == "disallow".toList then
        if state != 0 then
          (2, ⟨entry.useragents, entry.rulelines ++ [mkRuleLine val false]⟩, pol)
        else (state, entry, pol)
      else if key == "allow".toList then
        if state != 0 then
          (2, ⟨entry.useragents, entry.rulelines ++ [mkRuleLine val true]⟩, pol)
        else (state, entry, pol)
      else (state, entry, pol)

/-- The `RobotFileParser.parse` line loop, with the final state-2 flush. -/
def parseRobotsLines : List PyStr → Nat → RobotsEntry → RobotsPolicy → RobotsPolicy
  | [], state, entry, pol => if state == 2 then addEntry pol entry else pol
  | line :: rest, state, entry, pol =>
    let s := parseRobotsLine line state entry pol
    parseRobotsLines rest s.1 s.2.1 s.2.2

/-- `RobotFileParser.parse(lines)`. -/
def parseRobots (lines : List PyStr) : RobotsPolicy :=
  parseRobotsLines lines 0 ⟨[], []⟩ ⟨[], none⟩

/-- `RobotFileParser.can_fetch(useragent, url)`. urllib reduces the url to
its path/params/query before matching; `path` here is that reduced form, so
origins never participate in matching. An empty path is replaced by `/`. -/
def can_fetch (pol : RobotsPolicy) (useragent path : PyStr) : Bool :=
  let f := if path.isEmpty then ['/'] else path
  match pol.entries.find? (fun e => e.applies_to useragent) with
  | some e => e.allowance f
  | none =>
    match pol.default_entry with
    | some e => e.allowance f
    | none => true

/-! ### indigobot/utils/jf_crawler.py -/

/-- Outcome of one `requests.get(robots_url, timeout=5)` attempt:
a 200 response with body `text`, a non-200 status, or a RequestException. -/
inductive FetchResult where
  | success (text : PyStr)
  | httpError (code : Nat)
  | exn
deriving DecidableEq

/-- Whether an attempt produced a 200 response. -/
def FetchResult.isSuccess : FetchResult → Bool
  | .success _ => true
  | _ => false

/-- Adjustment of empty `Disallow:` lines (jf_crawler.py lines 54-66): if the
content mentions `Disallow:` but nowhere contains `Disallow:` followed by a
newline, every line whose stripped form is exactly `Disallow:` is replaced by
`Disallow: /` before parsing. -/
def adjustRobotsTxt (content : PyStr) : PyStr :=
  if containsSeq "Disallow:".toList content &&
      !containsSeq "Disallow:\n".toList content then
    let lines := List.splitOn '\n' content
    let adjusted := lines.map (fun line =>
      if ("disallow:".toList).isPrefixOf (pyLower (pyStrip line)) &&
          pyStrip line == "Disallow:".toList then
        "Disallow: /".toList
      else line)
    List.intercalate ['\n'] adjusted
  else content

/-- The retry loop of `fetch_robot_txt` (jf_crawler.py lines 46-80): `net i`
is the outcome of attempt `i`; on the first 200 the stripped body is adjusted
and parsed; once the remaining attempts run out, the disallow-all fallback is
parsed instead. `splitlines` is modelled as splitting on `'\n'`; the content
has been stripped, so the trailing-newline discrepancy cannot arise. -/
def fetchRobotLoop (net : Nat → FetchResult) : Nat → Nat → RobotsPolicy
  | _, 0 => parseRobots ["User-agent: *".toList, "Disallow: /".toList]
  | attempt, remaining + 1 =>
    match net attempt with
    | .success text =>
      parseRobots (List.splitOn '\n' (adjustRobotsTxt (pyStrip text)))
    | _ => fetchRobotLoop net (attempt + 1) remaining

/-- `fetch_robot_txt(base_url)` (jf_crawler.py lines 33-80), with 3 attempts
against the origin's `/robots.txt`. -/
def fetch_robot_txt (net : Nat → FetchResult) : RobotsPolicy :=
  fetchRobotLoop net 0 3

/-- The crawler's fixed User-Agent header (jf_crawler.py line 15). -/
def USER_AGENT : PyStr :=
  "Mozilla/5.0 (Windows NT 10.0; Win64; x64) SocialServiceChatBot/1.0 (Python)".toList

/-- A URL split into the origin returned by `get_base_url` (scheme://netloc)
and the remainder consulted by `can_fetch` (the path). -/
structure Url where
  origin : PyStr
  path : PyStr
deriving DecidableEq

/-- The worklist loop of `retrieve_final_urls` (jf_crawler.py lines 154-190).
`sitemapOf u = some extracted` abstracts the branch where `is_sitemap` holds
and `extract_xml (fetch_xml u)` yields `extracted`; `none` abstracts the
terminal-URL branch. The fuel bounds the number of iterations (the Python
loop has no cycle detection and may not terminate); the theorems hold for
every fuel. -/
def retrieveLoop (rp : RobotsPolicy) (sitemapOf : Url → Option (List Url)) :
    Nat → List Url → List Url → List Url
  | 0, _, finalUrls => finalUrls
  | _ + 1, [], finalUrls => finalUrls
  | fuel + 1, current :: rest, finalUrls =>
    if can_fetch rp USER_AGENT current.path then
      match sitemapOf current with
      | some extracted => retrieveLoop rp sitemapOf fuel (rest ++ extracted) finalUrls
      | none => retrieveLoop rp sitemapOf fuel rest (finalUrls ++ [current])
    else retrieveLoop rp sitemapOf fuel rest finalUrls

/-- `retrieve_final_urls(base_url, session)`: the robots policy is fetched
once from the seed's origin (`net` being that origin's robots.txt attempt
outcomes), then the worklist is processed starting from the seed. -/
def retrieve_final_urls (net : Nat → FetchResult) (sitemapOf : Url → Option (List Url))
    (fuel : Nat) (base_url : Url) : List Url :=
  retrieveLoop (fetch_robot_txt net) sitemapOf fuel [base_url] []

/-- Example network oracle: the seed origin serves a robots.txt disallowing
`/private` for every agent. -/
def netPrivateEx : Nat → FetchResult :=
  fun _ => FetchResult.success "User-agent: *\nDisallow: /private".toList

/-- Example sitemap oracle: the seed sitemap lists one URL under `/private`
and one ordinary content URL. -/
def sitemapOfEx : Url → Option (List Url) :=
  fun u =>
    if u.path = "/sitemap.xml".toList then
      some [⟨"https://example.org".toList, "/private/a".toList⟩,
            ⟨"https://example.org".toList, "/a".toList⟩]
    else none

/-! ### indigobot/utils/etl/custom_loader.py - documents and batching -/

/-- A langchain `Document` as used by the loader: its page content and its
`source` metadata entry. -/
structure Document where
  page_content : String
  source : String
deriving DecidableEq

/-- The batches that `add_docs(chunks, n)` (custom_loader.py lines 156-167)
passes to `vectorstore.add_documents`, in call order: Python's
`range(0, len(chunks), n)` yields the `⌈len/n⌉` indices `0, n, 2n, …` and
each call receives the slice `chunks[i : i + n]`. For `n = 0` Python's
`range` raises ValueError before any call is made; that case is modelled as
the empty batch list (Nat division by 0 yields 0). -/
def add_docs (chunks : List Document) (n : Nat) : List (List Document) :=
  (List.range' 0 ((chunks.length + n - 1) / n) n).map
    (fun i => (chunks.drop i).take n)

/-! ### langchain RecursiveCharacterTextSplitter, as configured by `chunking`

`chunking` (custom_loader.py lines 63-78) delegates to langchain's
`RecursiveCharacterTextSplitter` with the module's `chunk_size = 512` and
`chunk_overlap = 10`, leaving the default separators `["\n\n", "\n", " ", ""]`,
`keep_separator = True`, `strip_whitespace = True` and `length_function = len`.
The definitions below follow the langchain source: `_split_text`,
`_split_text_with_regex`, `_merge_splits`, `_join_docs`, `split_text`,
`create_documents` and `split_documents`. -/

/-- The configured chunk size (custom_loader.py line 29). -/
def chunk_size : Nat := 512

/-- The configured chunk overlap (custom_loader.py line 30). -/
def chunk_overlap : Nat := 10

/-- The splitter's default separator list. -/
def defaultSeparators : List PyStr := [['\n', '\n'], ['\n'], [' '], []]

/-- Separator selection loop of `_split_text`: scan the separator list and
pick the first separator that is empty (keeping no remaining separators) or
occurs in the text (keeping the separators after it); when the scan falls
through, the last separator is picked with no remaining ones. -/
def chooseSepGo (text dflt : PyStr) : List PyStr → PyStr × List PyStr
  | [] => (dflt, [])
  | s :: rest =>
    if s.isEmpty then ([], [])
    else if containsSeq s text then (s, rest)
    else chooseSepGo text dflt rest

/-- The separator chosen by `_split_text` plus the `new_separators` kept for
recursion. -/
def chooseSep (text : PyStr) (seps : List PyStr) : PyStr × List PyStr :=
  chooseSepGo text (seps.getLastD []) seps

/-- `_split_text_with_regex(text, separator, keep_separator=True)`: split on
the (escaped, hence literal) separator, re-attach each separator occurrence
to the front of the following piece, and drop empty pieces; the empty
separator splits into single characters. -/
def splitTextWithSep (text sep : PyStr) : List PyStr :=
  (if sep.isEmpty then text.map (fun c => [c])
   else
     match splitSeq sep text with
     | [] => []
     | p :: rest => p :: rest.map (fun piece => sep ++ piece)).filter
    (fun s => !s.isEmpty)

/-- `_join_docs(docs, separator)`: join, strip whitespace, drop if empty. -/
def joinDocs (docs : List PyStr) (sep : PyStr) : Option PyStr :=
  if (pyStrip (List.intercalate sep docs)).isEmpty then none
  else some (pyStrip (List.intercalate sep docs))

/-- The pop-while loop of `_merge_splits`: shrink the running window `cur`
from the front while its joined length `total` exceeds the overlap, or while
together with the incoming split of length `ln` it would exceed the chunk
size. When `cur` is empty the loop invariant gives `total = 0`, so the
condition is false and the loop stops (Python would raise IndexError in the
contrary, unreachable case). -/
def popSplits (cs ov sl ln : Nat) : List PyStr → Nat → List PyStr × Nat
  | [], total => ([], total)
  | c :: rest, total =>
    if total > ov ∨ (total + ln + sl > cs ∧ total > 0) then
      popSplits cs ov sl ln rest (total - (c.length + if rest.isEmpty then 0 else sl))
    else (c :: rest, total)

/-- The main loop of `_merge_splits`: accumulate splits into a window `cur`
whose joined length `total` stays within the chunk size; when the incoming
split would overflow, flush the joined window into `docs` and keep at most
`chunk_overlap` characters of it (via `popSplits`) as overlap context. -/
def mergeLoop (cs ov : Nat) (sep : PyStr) :
    List PyStr → List PyStr → Nat → List PyStr → List PyStr
  | [], docs, _, cur => docs ++ (joinDocs cur sep).toList
  | d :: ds, docs, total, cur =>
    if total + d.length + (if cur.isEmpty then 0 else sep.length) > cs then
      if cur.isEmpty then
        mergeLoop cs ov sep ds docs (total + d.length) [d]
      else
        mergeLoop cs ov sep ds (docs ++ (joinDocs cur sep).toList)
          ((popSplits cs ov sep.length d.length cur total).2 + d.length +
            (if (popSplits cs ov sep.length d.length cur total).1.isEmpty then 0
             else sep.length))
          ((popSplits cs ov sep.length d.length cur total).1 ++ [d])
    else
      mergeLoop cs ov sep ds docs
        (total + d.length + (if cur.isEmpty then 0 else sep.length)) (cur ++ [d])

/-- `_merge_splits(splits, separator)`. -/
def mergeSplits (cs ov : Nat) (splits : List PyStr) (sep : PyStr) : List PyStr :=
  mergeLoop cs ov sep splits [] 0 []

/-- The split-processing loop of `_split_text`, with the recursive results
for oversized splits precomputed: `pairs` carries each split together with
the chunk list substituted for it when it is too long (unused otherwise).
Short splits accumulate into `_good_splits` and are merged at flush points;
since `keep_separator` is set, merging always uses the empty separator. -/
def assembleSplits (cs ov : Nat) : List (PyStr × List PyStr) → List PyStr → List PyStr
  | [], goods => if goods.isEmpty then [] else mergeSplits cs ov goods []
  | (s, rs) :: rest, goods =>
    if s.length < cs then assembleSplits cs ov rest (goods ++ [s])
    else
      (if goods.isEmpty then [] else mergeSplits cs ov goods []) ++
        rs ++ assembleSplits cs ov rest []

/-- `_split_text(text, separators)`, with fuel making the recursion
structural: every recursive call descends to the strictly shorter
`new_separators` list, so fuel `separators.length` always suffices and the
fuel-exhausted default is never reached from `split_text` below. A split is
replaced by itself when no separators remain (`new_separators` empty), and by
its recursive splitting otherwise. -/
def splitTextFuel (cs ov : Nat) : Nat → List PyStr → PyStr → List PyStr
  | 0, _, text => [text]
  | fuel + 1, seps, text =>
    assembleSplits cs ov
      ((splitTextWithSep text (chooseSep text seps).1).map (fun s =>
        (s,
          if s.length < cs then []
          else if (chooseSep text seps).2.isEmpty then [s]
          else splitTextFuel cs ov fuel (chooseSep text seps).2 s)))
      []

/-- `split_text(text)` of the splitter constructed by `chunking`. -/
def split_text (text : PyStr) : List PyStr :=
  splitTextFuel chunk_size chunk_overlap defaultSeparators.length defaultSeparators text

/-- `chunking(documents)` (custom_loader.py lines 63-78), followed through
langchain's `split_documents`/`create_documents`: each document's content is
split and every chunk becomes a Document carrying the source metadata. -/
def chunking (documents : List Document) : List Document :=
  documents.flatMap (fun d =>
    (split_text d.page_content.toList).map (fun t => ⟨String.mk t, d.source⟩))

/-! ### indigobot/utils/etl/refine_html.py -/

/-- One header block of an extracted JSON document, as written by
`parse_and_save` (keys "tag", "text", "html"). -/
structure HtmlHeader where
  tag : String
  text : String
  html : String
deriving DecidableEq

/-- One parsed JSON document of the folder: its filename and its
`data["headers"]` list. -/
structure JsonDoc where
  filename : String
  headers : List HtmlHeader
deriving DecidableEq

/-- Inner loop of `load_JSON_files` (refine_html.py lines 126-133): one
Document per header whose `text` is truthy (`if text:` skips the empty
string), carrying `metadata.source = filename`. -/
def headerDocs (filename : String) : List HtmlHeader → List Document
  | [] => []
  | h :: rest =>
    if h.text ≠ "" then ⟨h.text, filename⟩ :: headerDocs filename rest
    else headerDocs filename rest

/-- `load_JSON_files(folder_path)` (refine_html.py lines 104-138), applied to
the folder's parsed `.json` documents in listing order (files that fail to
parse are skipped by the `except` clause and are not part of `folder`). -/
def load_JSON_files (folder : List JsonDoc) : List Document :=
  folder.flatMap (fun d => headerDocs d.filename d.headers)

/-! ### indigobot/utils/etl/jf_crawler.py - extract_xml -/

/-- An XML element tree as produced by `xml.etree.ElementTree.fromstring`:
tag (with the `{namespace}` prefix expanded), element text, children. -/
inductive XmlElem where
  | mk (tag : String) (text : Option String) (children : List XmlElem)

/-- Tag of an element. -/
def XmlElem.tag : XmlElem → String
  | .mk t _ _ => t

/-- Text of an element (None for an empty element). -/
def XmlElem.text : XmlElem → Option String
  | .mk _ t _ => t

/-- Children of an element. -/
def XmlElem.children : XmlElem → List XmlElem
  | .mk _ _ c => c

/-- All sub-elements of a forest in document order (each root followed by its
descendants), as enumerated by `findall(".//…")` from a root's children. -/
def subForest : List XmlElem → List XmlElem
  | [] => []
  | .mk t x cs :: rest => .mk t x cs :: (subForest cs ++ subForest rest)

/-- The sitemap XML namespace prefix used by `extract_xml`. -/
def sitemapNs : String := "{http://www.sitemaps.org/schemas/sitemap/0.9}"

/-- The loop of `extract_xml`: for each `<url>` element, `find` its first
`{ns}loc` child and read that child's `.text`. When no `<loc>` child exists,
`find` returns None and the `.text` attribute access raises (modelled as
`Except.error`), aborting the whole extraction. -/
def extractLocs : List XmlElem → Except String (List (Option String))
  | [] => .ok []
  | u :: rest =>
    match u.children.find? (fun c => c.tag == sitemapNs ++ "loc") with
    | none => .error "AttributeError: NoneType object has no attribute text"
    | some loc =>
      match extractLocs rest with
      | .ok locs => .ok (loc.text :: locs)
      | .error e => .error e

/-- `extract_xml(xml)` (etl/jf_crawler.py lines 64-84; utils/jf_crawler.py
lines 124-142 is identical): iterate over every `{ns}url` descendant of the
root and collect each one's `{ns}loc` child text. -/
def extract_xml (root : XmlElem) : Except String (List (Option String)) :=
  extractLocs ((subForest root.children).filter (fun e => e.tag == sitemapNs ++ "url"))

/-- A namespace-well-formed sitemap whose first `<url>` entry carries a
`<loc>` and whose second `<url>` entry has no `<loc>` child. -/
def badSitemap : XmlElem :=
  .mk (sitemapNs ++ "urlset") none
    [.mk (sitemapNs ++ "url") none
      [.mk (sitemapNs ++ "loc") (some "https://example.org/a") []],
     .mk (sitemapNs ++ "url") none []]

/-- The same sitemap with the malformed `<url>` entry removed. -/
def goodSitemap : XmlElem :=
  .mk (sitemapNs ++ "urlset") none
    [.mk (sitemapNs ++ "url") none
      [.mk (sitemapNs ++ "loc") (some "https://example.org/a") []]]

/-! ### Lemmas about the dedup tracker -/

theorem checkDupLoop_toLoad (urls : List String) :
    ∀ tracked toLoad, checkDupLoop tracked toLoad urls =
      ((checkDupLoop tracked [] urls).1, toLoad ++ (checkDupLoop tracked [] urls).2) := by
  induction urls with
  | nil => intro tracked toLoad; simp [checkDupLoop]
  | cons url rest ih =>
    intro tracked toLoad
    by_cases h : url ∈ tracked
    · simp only [checkDupLoop, if_pos h]
      exact ih tracked toLoad
    · simp only [checkDupLoop, if_neg h, List.nil_append]
      rw [ih (tracked ++ [url]) (toLoad ++ [url]), ih (tracked ++ [url]) [url]]
      simp

theorem checkDupLoop_tracked (urls : List String) :
    ∀ tracked, (checkDupLoop tracked [] urls).1 =
      tracked ++ (checkDupLoop tracked [] urls).2 := by
  induction urls with
  | nil => intro tracked; simp [checkDupLoop]
  | cons url rest ih =>
    intro tracked
    by_cases h : url ∈ tracked
    · simp only [checkDupLoop, if_pos h]
      exact ih tracked
    · simp only [checkDupLoop, if_neg h, List.nil_append]
      rw [checkDupLoop_toLoad rest (tracked ++ [url]) [url]]
      simp only [ih (tracked ++ [url])]
      simp

theorem firstOccNotIn_eq_loop (urls : List String) :
    ∀ (tracked seen kept : List String),
      (∀ x, x ∈ tracked ∨ x ∈ seen ↔ x ∈ tracked ∨ x ∈ kept) →
      firstOccNotIn tracked seen urls = (checkDupLoop (tracked ++ kept) [] urls).2 := by
  induction urls with
  | nil => intro tracked seen kept _; simp [firstOccNotIn, checkDupLoop]
  | cons url rest ih =>
    intro tracked seen kept hiff
    have hcond : (url ∈ tracked ∨ url ∈ seen) ↔ url ∈ tracked ++ kept := by
      rw [List.mem_append]; exact hiff url
    by_cases h : url ∈ tracked ∨ url ∈ seen
    · have hmem : url ∈ tracked ++ kept := hcond.mp h
      simp only [firstOccNotIn, if_pos h, checkDupLoop, if_pos hmem]
      refine ih tracked (seen ++ [url]) kept ?_
      intro x
      constructor
      · rintro (hx | hx)
        · exact (hiff x).mp (Or.inl hx)
        · rcases List.mem_append.mp hx with hx | hx
          · exact (hiff x).mp (Or.inr hx)
          · have : x = url := by simpa using hx
            subst this
            rcases List.mem_append.mp hmem with hx | hx
            · exact Or.inl hx
            · exact Or.inr hx
      · intro hx
        rcases (hiff x).mpr hx with hx | hx
        · exact Or.inl hx
        · exact Or.inr (List.mem_append.mpr (Or.inl hx))
    · have hmem : url ∉ tracked ++ kept := fun hc => h (hcond.mpr hc)
      simp only [firstOccNotIn, if_neg h, checkDupLoop, if_neg hmem, List.nil_append]
      rw [checkDupLoop_toLoad rest (tracked ++ kept ++ [url]) [url]]
      have harr : tracked ++ kept ++ [url] = tracked ++ (kept ++ [url]) := by simp
      rw [harr]
      have := ih tracked (seen ++ [url]) (kept ++ [url]) ?_
      · rw [this]; simp
      · intro x
        constructor
        · rintro (hx | hx)
          · exact Or.inl hx
          · rcases List.mem_append.mp hx with hx | hx
            · rcases (hiff x).mp (Or.inr hx) with hx | hx
              · exact Or.inl hx
              · exact Or.inr (List.mem_append.mpr (Or.inl hx))
            · exact Or.inr (List.mem_append.mpr (Or.inr hx))
        · rintro (hx | hx)
          · exact Or.inl hx
          · rcases List.mem_append.mp hx with hx | hx
            · rcases (hiff x).mpr (Or.inr hx) with hx | hx
              · exact Or.inl hx
              · exact Or.inr (List.mem_append.mpr (Or.inl hx))
            · have : x = url := by simpa using hx
              subst this
              exact Or.inr (List.mem_append.mpr (Or.inr (by simp)))

theorem checkDupLoop_mono (urls : List String) :
    ∀ tracked toLoad u, u ∈ tracked → u ∈ (checkDupLoop tracked toLoad urls).1 := by
  induction urls with
  | nil => intro tracked toLoad u hu; simpa [checkDupLoop] using hu
  | cons url rest ih =>
    intro tracked toLoad u hu
    by_cases h : url ∈ tracked
    · simp only [checkDupLoop, if_pos h]
      exact ih tracked toLoad u hu
    · simp only [checkDupLoop, if_neg h]
      exact ih (tracked ++ [url]) (toLoad ++ [url]) u (List.mem_append.mpr (Or.inl hu))

theorem checkDupLoop_candidate_mem (urls : List String) :
    ∀ tracked toLoad c, c ∈ urls → c ∈ (checkDupLoop tracked toLoad urls).1 := by
  induction urls with
  | nil => intro tracked toLoad c hc; cases hc
  | cons url rest ih =>
    intro tracked toLoad c hc
    rcases List.mem_cons.mp hc with hc | hc
    · subst hc
      by_cases h : c ∈ tracked
      · simp only [checkDupLoop, if_pos h]
        exact checkDupLoop_mono rest tracked toLoad c h
      · simp only [checkDupLoop, if_neg h]
        exact checkDupLoop_mono rest (tracked ++ [c]) (toLoad ++ [c]) c
          (List.mem_append.mpr (Or.inr (by simp)))
    · by_cases h : url ∈ tracked
      · simp only [checkDupLoop, if_pos h]
        exact ih tracked toLoad c hc
      · simp only [checkDupLoop, if_neg h]
        exact ih (tracked ++ [url]) (toLoad ++ [url]) c hc

/-! ### Claim theorems C1-C3 -/

/-- C1 counterexample: with prior tracked list `[]` and candidates
`["x", "x"]`, `check_duplicate` returns `["x"]`, while "the candidates of C
not in T, in their order within C" is `["x", "x"]`; so the claim as stated is
false for candidate lists with internal duplicates. -/
theorem check_duplicate_duplicate_candidates_cex :
    (check_duplicate [] ["x", "x"]).2 = ["x"] ∧
      (["x", "x"].filter (fun c => !(([] : List String).contains c))) = ["x", "x"] ∧
      (["x"] : List String) ≠ ["x", "x"] := by
  refine ⟨by decide, by decide, by decide⟩

/-- C1 (amended): `check_duplicate` with prior tracked list `T` and candidate
list `C` returns exactly the candidates of `C` that are neither in `T` nor a
repeat of an earlier candidate of `C` (first occurrences only), in their order
within `C`; the persisted tracked state afterwards equals `T` followed by the
returned candidates. In particular tracked `[A, B]` with candidates
`[B, C, D]` returns `[C, D]` and persists `[A, B, C, D]`. -/
theorem check_duplicate_spec (T C : List String) :
    check_duplicate T C = (T ++ firstOccNotIn T [] C, firstOccNotIn T [] C) := by
  have h2 : firstOccNotIn T [] C = (check_duplicate T C).2 := by
    have := firstOccNotIn_eq_loop C T [] [] (by intro x; simp)
    simpa [check_duplicate] using this
  have h1 : (check_duplicate T C).1 = T ++ (check_duplicate T C).2 :=
    checkDupLoop_tracked C T
  rw [h2, ← h1]

/-- C2: the persisted tracked list after a `check_duplicate` call contains
every url that was tracked before the call; the tracked set never shrinks. -/
theorem check_duplicate_superset (T C : List String) (u : String) (hu : u ∈ T) :
    u ∈ (check_duplicate T C).1 :=
  checkDupLoop_mono C T [] u hu

/-- Witness for C2 at tracked `["A"]`, candidates `["B"]`. -/
theorem check_duplicate_superset_witness :
    ("A" ∈ (["A"] : List String)) ∧ "A" ∈ (check_duplicate ["A"] ["B"]).1 :=
  ⟨by decide, check_duplicate_superset ["A"] ["B"] "A" (by decide)⟩

/-- C3 counterexample: with tracked `["a"]` and candidates `["a"]`, the
persisted state after the call is still `["a"]`, not `["a", "a"]`: the
already-tracked candidate is skipped (`continue`), not appended again. -/
theorem check_duplicate_append_all_cex :
    (check_duplicate ["a"] ["a"]).1 = ["a"] ∧
      (["a"] ++ ["a"] : List String) = ["a", "a"] ∧
      (["a"] : List String) ≠ ["a", "a"] := by
  refine ⟨by decide, by decide, by decide⟩

/-- C3 (amended): `check_duplicate` appends only the genuinely new candidates
to the persisted state (the state afterwards is the prior list followed by
exactly the returned new candidates); already-tracked candidates are skipped
and not re-appended, though every candidate is present in the persisted state
after the call. -/
theorem check_duplicate_appends_only_new (T C : List String) :
    (check_duplicate T C).1 = T ++ (check_duplicate T C).2 ∧
      ∀ c, c ∈ C → c ∈ (check_duplicate T C).1 :=
  ⟨checkDupLoop_tracked C T, fun c hc => checkDupLoop_candidate_mem C T [] c hc⟩

/-- Witness for C3 at tracked `["x"]`, candidates `["a", "b"]`. -/
theorem check_duplicate_appends_only_new_witness :
    ("b" ∈ (["a", "b"] : List String)) ∧ "b" ∈ (check_duplicate ["x"] ["a", "b"]).1 :=
  ⟨by decide, (check_duplicate_appends_only_new ["x"] ["a", "b"]).2 "b" (by decide)⟩

/-! ### Lemmas about the robots gate and the sitemap resolver -/

theorem can_fetch_no_entries (e : RobotsEntry) (agent path : PyStr) :
    can_fetch ⟨[], some e⟩ agent path =
      e.allowance (if path.isEmpty then ['/'] else path) := rfl

theorem allowance_single_rule (uas : List PyStr) (r : RuleLine) (f : PyStr)
    (h : r.applies_to f = true) :
    RobotsEntry.allowance ⟨uas, [r]⟩ f = r.allowance := by
  have hfind : List.find? (fun line => line.applies_to f) [r] = some r :=
    List.find?_cons_of_pos _ h
  unfold RobotsEntry.allowance
  rw [show ({ useragents := uas, rulelines := [r] } : RobotsEntry).rulelines = [r] from rfl,
    hfind]

theorem denyAllPolicy_denies (agent path : PyStr)
    (hpath : path = [] ∨ (['/'] : PyStr).isPrefixOf path = true) :
    can_fetch ⟨[], some ⟨[['*']], [⟨['/'], false⟩]⟩⟩ agent path = false := by
  have hpre : (['/'] : PyStr).isPrefixOf (if path.isEmpty then ['/'] else path) = true := by
    rcases hpath with h | h
    · subst h; decide
    · cases path with
      | nil => simp [List.isPrefixOf] at h
      | cons a l => simpa using h
  have happ : RuleLine.applies_to ⟨['/'], false⟩ (if path.isEmpty then ['/'] else path) = true := by
    unfold RuleLine.applies_to
    rw [hpre]
    simp
  rw [can_fetch_no_entries, allowance_single_rule _ _ _ happ]

theorem fetchRobotLoop_step (net : Nat → FetchResult) (a r : Nat)
    (ha : (net a).isSuccess = false) :
    fetchRobotLoop net a (r + 1) = fetchRobotLoop net (a + 1) r := by
  cases hn : net a with
  | success t => rw [hn] at ha; simp [FetchResult.isSuccess] at ha
  | httpError c => simp [fetchRobotLoop, hn]
  | exn => simp [fetchRobotLoop, hn]

theorem retrieveLoop_allowed (rp : RobotsPolicy) (sitemapOf : Url → Option (List Url)) :
    ∀ fuel worklist finalUrls,
      (∀ v ∈ finalUrls, can_fetch rp USER_AGENT v.path = true) →
      ∀ u ∈ retrieveLoop rp sitemapOf fuel worklist finalUrls,
        can_fetch rp USER_AGENT u.path = true := by
  intro fuel
  induction fuel with
  | zero => intro wl acc hacc u hu; exact hacc u hu
  | succ fuel ih =>
    intro wl acc hacc u hu
    cases wl with
    | nil => exact hacc u hu
    | cons current rest =>
      by_cases hcf : can_fetch rp USER_AGENT current.path = true
      · rw [show retrieveLoop rp sitemapOf (fuel + 1) (current :: rest) acc =
              (match sitemapOf current with
               | some extracted => retrieveLoop rp sitemapOf fuel (rest ++ extracted) acc
               | none => retrieveLoop rp sitemapOf fuel rest (acc ++ [current])) by
            simp [retrieveLoop, hcf]] at hu
        cases hsm : sitemapOf current with
        | some extracted =>
          rw [hsm] at hu
          exact ih (rest ++ extracted) acc hacc u hu
        | none =>
          rw [hsm] at hu
          refine ih rest (acc ++ [current]) ?_ u hu
          intro v hv
          rcases List.mem_append.mp hv with hv | hv
          · exact hacc v hv
          · have : v = current := by simpa using hv
            subst this; exact hcf
      · have hcf' : can_fetch rp USER_AGENT current.path = false :=
          Bool.eq_false_iff.mpr hcf
        rw [show retrieveLoop rp sitemapOf (fuel + 1) (current :: rest) acc =
              retrieveLoop rp sitemapOf fuel rest acc by
            simp [retrieveLoop, hcf']] at hu
        exact ih rest acc hacc u hu

theorem netPrivateEx_denies_private (p : PyStr)
    (hp : ("/private".toList).isPrefixOf p = true) :
    can_fetch (fetch_robot_txt netPrivateEx) USER_AGENT p = false := by
  have hpv : fetch_robot_txt netPrivateEx =
      ⟨[], some ⟨[['*']], [⟨"/private".toList, false⟩]⟩⟩ := by decide
  have hf : (if p.isEmpty then ['/'] else p) = p := by
    cases p with
    | nil => simp [List.isPrefixOf] at hp
    | cons a l => rfl
  have happ : RuleLine.applies_to ⟨"/private".toList, false⟩
      (if p.isEmpty then ['/'] else p) = true := by
    unfold RuleLine.applies_to
    rw [hf, hp]
    simp
  rw [hpv, can_fetch_no_entries, allowance_single_rule _ _ _ happ]

/-! ### Claim theorems C4-C6 -/

/-- C4: whenever the seed origin's robots policy (as fetched and parsed by
`fetch_robot_txt`) denies every path under a prefix for the crawler's agent,
`retrieve_final_urls` never returns a terminal URL under that prefix,
whatever the sitemap contents encountered during the pass. -/
theorem retrieve_final_urls_robots_compliant (net : Nat → FetchResult)
    (sitemapOf : Url → Option (List Url)) (fuel : Nat) (base_url : Url) (pfx : PyStr)
    (hdeny : ∀ p : PyStr, pfx.isPrefixOf p = true →
      can_fetch (fetch_robot_txt net) USER_AGENT p = false)
    (u : Url) (hu : u ∈ retrieve_final_urls net sitemapOf fuel base_url) :
    pfx.isPrefixOf u.path = false := by
  have hallow := retrieveLoop_allowed (fetch_robot_txt net) sitemapOf fuel [base_url] []
    (by intro v hv; cases hv) u hu
  cases h : pfx.isPrefixOf u.path with
  | false => rfl
  | true =>
    have hfalse := hdeny u.path h
    rw [hallow] at hfalse
    exact absurd hfalse (by simp)

/-- Witness for C4: a concrete robots.txt disallowing `/private`, a sitemap
containing `/private/a` and `/a`; the resolver emits `/a`, and the theorem
applies to it. -/
theorem retrieve_final_urls_robots_compliant_witness :
    (⟨"https://example.org".toList, "/a".toList⟩ : Url) ∈
        retrieve_final_urls netPrivateEx sitemapOfEx 10
          ⟨"https://example.org".toList, "/sitemap.xml".toList⟩ ∧
      ("/private".toList).isPrefixOf
        ((⟨"https://example.org".toList, "/a".toList⟩ : Url).path) = false :=
  ⟨by decide,
    retrieve_final_urls_robots_compliant netPrivateEx sitemapOfEx 10
      ⟨"https://example.org".toList, "/sitemap.xml".toList⟩ "/private".toList
      netPrivateEx_denies_private
      ⟨"https://example.org".toList, "/a".toList⟩ (by decide)⟩

/-- C5: if all 3 attempts to fetch robots.txt fail (non-200 or exception),
`fetch_robot_txt` returns the deny-all fallback: the permission check answers
false for every agent and every URL of the origin (i.e. every path that is
empty or starts with `/`). -/
theorem fetch_robot_txt_fail_closed (net : Nat → FetchResult)
    (hfail : ∀ i, i < 3 → (net i).isSuccess = false)
    (agent path : PyStr) (hpath : path = [] ∨ (['/'] : PyStr).isPrefixOf path = true) :
    can_fetch (fetch_robot_txt net) agent path = false := by
  have hpol : fetch_robot_txt net =
      parseRobots ["User-agent: *".toList, "Disallow: /".toList] := by
    unfold fetch_robot_txt
    rw [fetchRobotLoop_step net 0 2 (hfail 0 (by norm_num)),
      fetchRobotLoop_step net 1 1 (hfail 1 (by norm_num)),
      fetchRobotLoop_step net 2 0 (hfail 2 (by norm_num))]
    rfl
  have hpv : parseRobots ["User-agent: *".toList, "Disallow: /".toList] =
      ⟨[], some ⟨[['*']], [⟨['/'], false⟩]⟩⟩ := by decide
  rw [hpol, hpv]
  exact denyAllPolicy_denies agent path hpath

/-- Witness for C5: every attempt raises; the URL `/page` of the origin is
denied for an arbitrary concrete agent. -/
theorem fetch_robot_txt_fail_closed_witness :
    (∀ i, i < 3 → ((fun _ => FetchResult.exn) i).isSuccess = false) ∧
      (("/page".toList : PyStr) = [] ∨ (['/'] : PyStr).isPrefixOf "/page".toList = true) ∧
      can_fetch (fetch_robot_txt (fun _ => FetchResult.exn))
        "AnyBot".toList "/page".toList = false :=
  ⟨fun _ _ => rfl, Or.inr (by decide),
    fetch_robot_txt_fail_closed (fun _ => FetchResult.exn) (fun _ _ => rfl)
      "AnyBot".toList "/page".toList (Or.inr (by decide))⟩

/-- C6 counterexample: the successfully fetched robots.txt
`"User-agent: *\nDisallow:"` contains an empty `Disallow:` directive (its
last line), yet the produced policy denies `/page` for an agent: because the
stripped content does not contain `"Disallow:\n"`, the adjustment rewrites
the empty directive to `Disallow: /`, a deny-all rule — not allow-all as the
claim (and the robots exclusion standard) prescribes. -/
theorem fetch_robot_txt_empty_disallow_cex :
    ((List.splitOn '\n' ("User-agent: *\nDisallow:".toList)).contains
        "Disallow:".toList) = true ∧
      can_fetch
        (fetch_robot_txt (fun _ => FetchResult.success "User-agent: *\nDisallow:".toList))
        "TestBot".toList "/page".toList = false := by
  exact ⟨by decide, by decide⟩

/-- C6 (amended): an empty `Disallow:` directive is treated as allow-all only
when it is followed by a newline in the stripped content (then the adjustment
leaves the content unchanged and urllib's parser turns the empty path into an
allow-all rule): for such a robots.txt whose only directive block is
`User-agent: *` with the empty `Disallow:`, every URL is permitted for every
agent. When the empty `Disallow:` is the final line of the stripped content,
it is instead rewritten to `Disallow: /`, denying every URL of the origin. -/
theorem fetch_robot_txt_empty_disallow_amended (agent path : PyStr) :
    adjustRobotsTxt "User-agent: *\nDisallow:\n# end".toList =
        "User-agent: *\nDisallow:\n# end".toList ∧
      can_fetch
        (fetch_robot_txt
          (fun _ => FetchResult.success "User-agent: *\nDisallow:\n# end".toList))
        agent path = true := by
  constructor
  · decide
  · have hpv : fetch_robot_txt
        (fun _ => FetchResult.success "User-agent: *\nDisallow:\n# end".toList) =
        ⟨[], some ⟨[['*']], [⟨[], true⟩]⟩⟩ := by decide
    have happ : RuleLine.applies_to ⟨[], true⟩
        (if path.isEmpty then ['/'] else path) = true := by
      unfold RuleLine.applies_to
      simp [List.isPrefixOf]
    rw [hpv, can_fetch_no_entries, allowance_single_rule _ _ _ happ]

/-! ### Lemmas about batching -/

theorem range'_map_shift (n : Nat) :
    ∀ (c : Nat) (f : Nat → List Document) (s : Nat),
      (List.range' s c n).map f = (List.range' 0 c n).map (fun i => f (s + i)) := by
  intro c
  induction c with
  | zero => intro f s; rfl
  | succ c ih =>
    intro f s
    rw [List.range'_succ, List.range'_succ]
    simp only [Nat.zero_add, List.map_cons]
    rw [ih f (s + n), ih (fun i => f (s + i)) n]
    simp [Nat.add_assoc]

theorem add_docs_cons (chunks : List Document) (n : Nat) (hn : 0 < n)
    (hne : chunks ≠ []) :
    add_docs chunks n = chunks.take n :: add_docs (chunks.drop n) n := by
  have hL : 1 ≤ chunks.length := List.length_pos.mpr hne
  have hcount : (chunks.length + n - 1) / n = (chunks.length - 1) / n + 1 := by
    have h1 : chunks.length + n - 1 = (chunks.length - 1) + n := by omega
    rw [h1, Nat.add_div_right _ hn]
  have hcount' : ((chunks.drop n).length + n - 1) / n = (chunks.length - 1) / n := by
    rw [List.length_drop]
    rcases Nat.le_total chunks.length n with h | h
    · have h1 : chunks.length - n = 0 := by omega
      rw [h1]
      rw [show 0 + n - 1 = n - 1 by omega, Nat.div_eq_of_lt (by omega),
        Nat.div_eq_of_lt (by omega)]
    · rw [show chunks.length - n + n - 1 = chunks.length - 1 by omega]
  unfold add_docs
  rw [hcount, hcount', List.range'_succ, List.map_cons,
    range'_map_shift n _ _ (0 + n)]
  congr 1
  refine List.map_congr_left ?_
  intro i _
  rw [List.drop_drop, show 0 + n + i = n + i by omega]

theorem add_docs_flatten_le (n : Nat) (hn : 0 < n) :
    ∀ (L : Nat) (chunks : List Document), chunks.length ≤ L →
      (add_docs chunks n).flatten = chunks := by
  intro L
  induction L with
  | zero =>
    intro chunks h
    have hc : chunks = [] := List.length_eq_zero.mp (Nat.le_zero.mp h)
    subst hc
    simp [add_docs, Nat.div_eq_of_lt (show 0 + n - 1 < n by omega)]
  | succ L ih =>
    intro chunks h
    rcases eq_or_ne chunks [] with hc | hc
    · subst hc
      simp [add_docs, Nat.div_eq_of_lt (show 0 + n - 1 < n by omega)]
    · rw [add_docs_cons chunks n hn hc, List.flatten_cons,
        ih (chunks.drop n)
          (by rw [List.length_drop]; have := List.length_pos.mpr hc; omega),
        List.take_append_drop]

/-! ### Claim theorems C8-C10 -/

/-- C8: for every chunk list and batch size `n > 0`, `add_docs` calls the
vector store's `add_documents` only with consecutive slices of at most `n`
chunks, and the concatenation of the submitted batches in call order equals
the input chunk list. -/
theorem add_docs_batches_spec (chunks : List Document) (n : Nat) (hn : 0 < n) :
    (∀ b ∈ add_docs chunks n, b.length ≤ n) ∧
      (add_docs chunks n).flatten = chunks := by
  constructor
  · intro b hb
    rcases List.mem_map.mp hb with ⟨i, _, rfl⟩
    exact List.length_take_le n _
  · exact add_docs_flatten_le n hn chunks.length chunks le_rfl

/-- Witness for C8 at three chunks with batch size 2. -/
theorem add_docs_batches_spec_witness :
    0 < 2 ∧
      (add_docs [⟨"a", "s"⟩, ⟨"b", "s"⟩, ⟨"c", "s"⟩] 2).flatten =
        [⟨"a", "s"⟩, ⟨"b", "s"⟩, ⟨"c", "s"⟩] :=
  ⟨by decide,
    (add_docs_batches_spec [⟨"a", "s"⟩, ⟨"b", "s"⟩, ⟨"c", "s"⟩] 2 (by decide)).2⟩

theorem headerDocs_eq (filename : String) (hs : List HtmlHeader) :
    headerDocs filename hs =
      (hs.filter (fun h => !(h.text == ""))).map
        (fun h => (⟨h.text, filename⟩ : Document)) := by
  induction hs with
  | nil => rfl
  | cons h rest ih =>
    by_cases hx : h.text = ""
    · simp [headerDocs, hx, ih]
    · simp [headerDocs, hx, ih]

/-- C9 counterexample: a document with one header block whose text is empty
(`<h1></h1>` extracts to `""`) yields 0 content records, not 1: the
`if text:` test in `load_JSON_files` skips headers with empty text, so a
document with K header blocks does not always yield K records. -/
theorem load_JSON_files_empty_header_cex :
    load_JSON_files [⟨"a.json", [⟨"h1", "", "<h1></h1>"⟩]⟩] = [] ∧
      ([(⟨"h1", "", "<h1></h1>"⟩ : HtmlHeader)] : List HtmlHeader).length = 1 :=
  ⟨by decide, by decide⟩

/-- C9 (amended): flattening emits exactly one content record per header
block with non-empty text (header blocks whose text is empty are skipped), in
document order, each carrying that block's text as content and
`metadata.source` equal to the document's filename. -/
theorem load_JSON_files_spec (folder : List JsonDoc) :
    load_JSON_files folder =
      folder.flatMap (fun d =>
        (d.headers.filter (fun h => !(h.text == ""))).map
          (fun h => (⟨h.text, d.filename⟩ : Document))) := by
  unfold load_JSON_files
  congr 1
  funext d
  exact headerDocs_eq d.filename d.headers

/-- C10: on a namespace-well-formed sitemap containing a `<url>` element with
no `<loc>` child, `extract_xml` raises (attribute access on None) instead of
returning a URL list, aborting extraction of the entire sitemap — the same
sitemap with the malformed entry removed extracts fine, so the good entry is
lost rather than the bad one skipped. -/
theorem extract_xml_missing_loc_aborts :
    extract_xml badSitemap =
        Except.error "AttributeError: NoneType object has no attribute text" ∧
      extract_xml goodSitemap = Except.ok [some "https://example.org/a"] := by
  constructor
  · simp [extract_xml, badSitemap, subForest, extractLocs, XmlElem.children,
      XmlElem.tag, sitemapNs]
  · simp [extract_xml, goodSitemap, subForest, extractLocs, XmlElem.children,
      XmlElem.tag, XmlElem.text, sitemapNs]

/-! ### Lemmas about the chunking engine -/

theorem length_dropWhile_le (p : Char → Bool) (l : PyStr) :
    (l.dropWhile p).length ≤ l.length := by
  induction l with
  | nil => simp
  | cons c rest ih =>
    by_cases h : p c
    · rw [List.dropWhile_cons_of_pos h]
      exact Nat.le_succ_of_le ih
    · rw [List.dropWhile_cons_of_neg h]

theorem pyStrip_length_le (s : PyStr) : (pyStrip s).length ≤ s.length := by
  unfold pyStrip
  calc ((s.dropWhile isPySpace).reverse.dropWhile isPySpace).reverse.length
      = ((s.dropWhile isPySpace).reverse.dropWhile isPySpace).length :=
        List.length_reverse _
    _ ≤ (s.dropWhile isPySpace).reverse.length := length_dropWhile_le _ _
    _ = (s.dropWhile isPySpace).length := List.length_reverse _
    _ ≤ s.length := length_dropWhile_le _ _

theorem intercalate_nil_flatten : ∀ l : List PyStr, List.intercalate [] l = l.flatten
  | [] => rfl
  | [_] => by simp [List.intercalate]
  | x :: y :: r => by
    have ih := intercalate_nil_flatten (y :: r)
    simp only [List.intercalate] at ih ⊢
    rw [show List.intersperse ([] : PyStr) (x :: y :: r) =
        x :: [] :: List.intersperse [] (y :: r) from rfl]
    rw [List.flatten_cons, List.flatten_cons, List.nil_append, ih, List.flatten_cons]
    simp [List.flatten_cons]

theorem joinDocs_nil_length (cur : List PyStr) (d : PyStr)
    (h : joinDocs cur [] = some d) : d.length ≤ (cur.map List.length).sum := by
  unfold joinDocs at h
  split at h
  · cases h
  · injection h with h
    subst h
    calc (pyStrip (List.intercalate [] cur)).length
        ≤ (List.intercalate [] cur).length := pyStrip_length_le _
      _ = cur.flatten.length := by rw [intercalate_nil_flatten]
      _ = (cur.map List.length).sum := List.length_flatten _

theorem popSplits_spec (cs ov ln : Nat) :
    ∀ (cur : List PyStr) (total : Nat),
      total = (cur.map List.length).sum →
      (popSplits cs ov 0 ln cur total).2 =
          ((popSplits cs ov 0 ln cur total).1.map List.length).sum ∧
        (popSplits cs ov 0 ln cur total).2 ≤ ov ∧
        ((popSplits cs ov 0 ln cur total).2 + ln ≤ cs ∨
          (popSplits cs ov 0 ln cur total).2 = 0) := by
  intro cur
  induction cur with
  | nil =>
    intro total ht
    simp only [List.map_nil, List.sum_nil] at ht
    subst ht
    exact ⟨rfl, Nat.zero_le ov, Or.inr rfl⟩
  | cons c rest ih =>
    intro total ht
    simp only [List.map_cons, List.sum_cons] at ht
    by_cases hcond : total > ov ∨ (total + ln + 0 > cs ∧ total > 0)
    · rw [show popSplits cs ov 0 ln (c :: rest) total =
          popSplits cs ov 0 ln rest
            (total - (c.length + if rest.isEmpty then 0 else 0)) by
        rw [popSplits, if_pos hcond]]
      exact ih _ (by rw [ite_self]; omega)
    · rw [show popSplits cs ov 0 ln (c :: rest) total = (c :: rest, total) by
        rw [popSplits, if_neg hcond]]
      push_neg at hcond
      refine ⟨by simp [ht], hcond.1, ?_⟩
      rcases le_or_lt (total + ln) cs with hle | hgt
      · exact Or.inl hle
      · have h0 : total ≤ 0 := hcond.2 (by omega)
        exact Or.inr (by omega)

theorem mergeLoop_bound (cs ov : Nat) :
    ∀ (splits docs : List PyStr) (total : Nat) (cur : List PyStr),
      (∀ s ∈ splits, s.length < cs) →
      total = (cur.map List.length).sum →
      total ≤ cs →
      (∀ d ∈ docs, d.length ≤ cs) →
      ∀ d ∈ mergeLoop cs ov [] splits docs total cur, d.length ≤ cs := by
  intro splits
  induction splits with
  | nil =>
    intro docs total cur _ ht htle hdocs d hd
    simp only [mergeLoop] at hd
    rcases List.mem_append.mp hd with hd | hd
    · exact hdocs d hd
    · cases hj : joinDocs cur [] with
      | none => rw [hj] at hd; cases hd
      | some x =>
        rw [hj] at hd
        have hdx : d = x := by simpa using hd
        subst hdx
        calc d.length ≤ (cur.map List.length).sum := joinDocs_nil_length cur d hj
          _ = total := ht.symm
          _ ≤ cs := htle
  | cons s ss ih =>
    intro docs total cur hs ht htle hdocs d hd
    have hslen : s.length < cs := hs s (by simp)
    have hss : ∀ t ∈ ss, t.length < cs := fun t htm => hs t (by simp [htm])
    simp only [mergeLoop, List.length_nil, ite_self] at hd
    split at hd
    case isTrue hover =>
      split at hd
      case isTrue hcur =>
        have hcur' : cur = [] := by
          cases cur with
          | nil => rfl
          | cons a l => simp at hcur
        subst hcur'
        simp only [List.map_nil, List.sum_nil] at ht
        subst ht
        exact ih docs (0 + s.length) [s] hss (by simp) (by omega) hdocs d hd
      case isFalse hcur =>
        obtain ⟨hp1, hp2, hp3⟩ := popSplits_spec cs ov s.length cur total ht
        refine ih _ _ _ hss ?_ ?_ ?_ d hd
        · rw [List.map_append, List.sum_append]
          simp [hp1]
        · rcases hp3 with h | h
          · omega
          · omega
        · intro x hx
          rcases List.mem_append.mp hx with hx | hx
          · exact hdocs x hx
          · cases hj : joinDocs cur [] with
            | none => rw [hj] at hx; cases hx
            | some y =>
              rw [hj] at hx
              have hxy : x = y := by simpa using hx
              subst hxy
              calc x.length ≤ (cur.map List.length).sum := joinDocs_nil_length cur x hj
                _ = total := ht.symm
                _ ≤ cs := htle
    case isFalse hover =>
      refine ih _ _ _ hss ?_ ?_ hdocs d hd
      · rw [List.map_append, List.sum_append]
        simp [ht]
      · omega

theorem mergeSplits_bound (cs ov : Nat) (splits : List PyStr)
    (hs : ∀ s ∈ splits, s.length < cs) :
    ∀ d ∈ mergeSplits cs ov splits [], d.length ≤ cs :=
  mergeLoop_bound cs ov splits [] 0 [] hs rfl (Nat.zero_le cs)
    (by intro d hd; cases hd)

theorem assembleSplits_bound (cs ov : Nat) :
    ∀ (pairs : List (PyStr × List PyStr)) (goods : List PyStr),
      (∀ pr ∈ pairs, pr.1.length < cs ∨ ∀ c ∈ pr.2, c.length ≤ cs) →
      (∀ g ∈ goods, g.length < cs) →
      ∀ c ∈ assembleSplits cs ov pairs goods, c.length ≤ cs := by
  intro pairs
  induction pairs with
  | nil =>
    intro goods _ hg c hc
    simp only [assembleSplits] at hc
    split at hc
    · cases hc
    · exact mergeSplits_bound cs ov goods hg c hc
  | cons pr rest ih =>
    intro goods hp hg c hc
    obtain ⟨s, rs⟩ := pr
    simp only [assembleSplits] at hc
    split at hc
    case isTrue hlen =>
      refine ih (goods ++ [s]) (fun q hq => hp q (List.mem_cons_of_mem _ hq)) ?_ c hc
      intro g hgm
      rcases List.mem_append.mp hgm with h | h
      · exact hg g h
      · have hgs : g = s := by simpa using h
        subst hgs
        exact hlen
    case isFalse hlen =>
      rcases List.mem_append.mp hc with h | h
      · rcases List.mem_append.mp h with h | h
        · split at h
          · cases h
          · exact mergeSplits_bound cs ov goods hg c h
        · rcases hp (s, rs) (by simp) with hbad | hok
          · exact absurd hbad hlen
          · exact hok c h
      · exact ih [] (fun q hq => hp q (List.mem_cons_of_mem _ hq))
          (by intro g hg0; cases hg0) c h

theorem chooseSepGo_empty_mem (text dflt : PyStr) :
    ∀ seps : List PyStr, ([] : PyStr) ∈ seps →
      chooseSepGo text dflt seps = ([], []) ∨
        (([] : PyStr) ∈ (chooseSepGo text dflt seps).2 ∧
          (chooseSepGo text dflt seps).2.length < seps.length) := by
  intro seps
  induction seps with
  | nil => intro h; cases h
  | cons s rest ih =>
    intro hmem
    cases hse : s.isEmpty with
    | true =>
      left
      simp [chooseSepGo, hse]
    | false =>
      have hsne : s ≠ [] := by
        cases s with
        | nil => simp at hse
        | cons a l => exact fun hh => by cases hh
      have hmem' : ([] : PyStr) ∈ rest := by
        rcases List.mem_cons.mp hmem with h | h
        · exact absurd h.symm hsne
        · exact h
      cases hocc : containsSeq s text with
      | true =>
        right
        refine ⟨?_, ?_⟩ <;> simp [chooseSepGo, hse, hocc, hmem']
      | false =>
        have hred : chooseSepGo text dflt (s :: rest) = chooseSepGo text dflt rest := by
          simp [chooseSepGo, hse, hocc]
        rcases ih hmem' with h | ⟨h1, h2⟩
        · left
          rw [hred, h]
        · right
          rw [hred]
          exact ⟨h1, Nat.lt_succ_of_lt h2⟩

theorem splitTextWithSep_nil_sep (text : PyStr) :
    ∀ s ∈ splitTextWithSep text [], s.length = 1 := by
  intro s hs
  have hs' : s ∈ (text.map (fun c => [c])).filter (fun t => !t.isEmpty) := hs
  rcases List.mem_map.mp (List.mem_filter.mp hs').1 with ⟨c, _, rfl⟩
  rfl

theorem splitTextFuel_bound (cs ov : Nat) (hcs : 2 ≤ cs) :
    ∀ (fuel : Nat) (seps : List PyStr) (text : PyStr),
      seps.length ≤ fuel → ([] : PyStr) ∈ seps →
      ∀ c ∈ splitTextFuel cs ov fuel seps text, c.length ≤ cs := by
  intro fuel
  induction fuel with
  | zero =>
    intro seps text hf hmem c hc
    have hnil : seps = [] := List.length_eq_zero.mp (Nat.le_zero.mp hf)
    subst hnil
    cases hmem
  | succ fuel ih =>
    intro seps text hf hmem c hc
    have hchoose := chooseSepGo_empty_mem text (seps.getLastD []) seps hmem
    rw [show chooseSepGo text (seps.getLastD []) seps = chooseSep text seps from rfl]
      at hchoose
    simp only [splitTextFuel] at hc
    rcases hchoose with hp | ⟨hpmem, hplen⟩
    · refine assembleSplits_bound cs ov _ [] ?_ (by intro g hg; cases hg) c hc
      intro pr hpr
      rcases List.mem_map.mp hpr with ⟨s, hsm, rfl⟩
      left
      have h1 : s.length = 1 := by
        apply splitTextWithSep_nil_sep text
        rw [hp] at hsm
        exact hsm
      show s.length < cs
      omega
    · refine assembleSplits_bound cs ov _ [] ?_ (by intro g hg; cases hg) c hc
      intro pr hpr
      rcases List.mem_map.mp hpr with ⟨s, hsm, rfl⟩
      by_cases hlen : s.length < cs
      · left
        exact hlen
      · right
        have hne : (chooseSep text seps).2.isEmpty = false := by
          cases h2 : (chooseSep text seps).2 with
          | nil => rw [h2] at hpmem; cases hpmem
          | cons a l => rfl
        intro c' hc'
        rw [if_neg hlen] at hc'
        split at hc'
        · rename_i hT
          rw [hne] at hT
          cases hT
        · exact ih (chooseSep text seps).2 s (by omega) hpmem c' hc'

theorem split_text_bound (text : PyStr) :
    ∀ c ∈ split_text text, c.length ≤ chunk_size := by
  intro c hc
  exact splitTextFuel_bound chunk_size chunk_overlap (by decide)
    defaultSeparators.length defaultSeparators text le_rfl (by decide) c hc

/-! ### Claim theorem C7 -/

/-- C7: every chunk in the list returned by the chunking engine satisfies
`len(chunk.text) ≤ chunk_size`, with the chunk size 512 configured in the ETL
loader, for every list of input documents. -/
theorem chunking_chunk_size_bound (docs : List Document) (c : Document)
    (hc : c ∈ chunking docs) : c.page_content.length ≤ chunk_size := by
  unfold chunking at hc
  rcases List.mem_flatMap.mp hc with ⟨d, _, hcd⟩
  rcases List.mem_map.mp hcd with ⟨t, ht, rfl⟩
  exact split_text_bound d.page_content.toList t ht

/-- Witness for C7: chunking a single short document yields it back as the
one chunk, and the theorem bounds its length. -/
theorem chunking_chunk_size_bound_witness :
    (⟨"hi", "s"⟩ : Document) ∈ chunking [⟨"hi", "s"⟩] ∧
      (⟨"hi", "s"⟩ : Document).page_content.length ≤ chunk_size :=
  ⟨by decide, chunking_chunk_size_bound [⟨"hi", "s"⟩] ⟨"hi", "s"⟩ (by decide)⟩
